import Mathlib

/-!
Verification of the Game of Life implementations in gol-par.cpp (C++ threads)
and gol-omp.cpp (OpenMP) against their natural-language specification.

The C++ code is shallowly embedded:
- `std::vector<int>` rows and boards become `List Int` / `List (List Int)`;
- `vector::at`, which throws on an out-of-range index, becomes an
  `Option`-valued access (`atOpt`, `setAt`); a thrown exception is `none`
  and propagates through the `Option` monad, exactly as an uncaught C++
  exception aborts the enclosing computation;
- `for` loops become folds over the loop's index list;
- the per-row concurrency of both versions (threads over disjoint row
  ranges, OpenMP parallel-for over rows) writes each row of the fresh
  `new_board` from exactly one loop iteration, so the final board is
  modelled by executing the iterations in index order.
-/

namespace GoL

abbrev Row : Type := List Int
abbrev Board : Type := List Row

/-- Model of `vector::at` with a C++ `int` index: returns `none` (an
out-of-range exception) unless `0 ≤ i < size`. -/
def atOpt {α : Type} (xs : List α) (i : Int) : Option α :=
  if 0 ≤ i then xs[i.toNat]? else none

/-- Model of the write `xs.at(i) = v`: `none` on an out-of-range index. -/
def setAt (xs : List Row) (i : Int) (v : Row) : Option (List Row) :=
  if 0 ≤ i ∧ i.toNat < xs.length then some (xs.set i.toNat v) else none

/-- The local vector `range = {-1, 0, 1}` of both `updateCell`s. -/
def offRange : List Int := [-1, 0, 1]

/-- Neighbour-counting loop of `updateCell` in gol-par.cpp (lines 95-108):
for each `offset` in `{-1,0,1}` with `r+offset` inside the board, and each
`offcol` in `{-1,0,1}` with `(offcol || offset)` true (centre excluded) and
`c+offcol` inside the row, add `board.at(r+offset).at(c+offcol)`. -/
def neighbours (r c : Int) (board : Board) : Option Int :=
  offRange.foldlM (fun acc offset =>
    if 0 ≤ r + offset ∧ r + offset < (board.length : Int) then
      (atOpt board (r + offset)).bind (fun row =>
        offRange.foldlM (fun acc2 offcol =>
          if (offcol ≠ 0 ∨ offset ≠ 0) ∧ 0 ≤ c + offcol ∧ c + offcol < (row.length : Int) then
            (atOpt board (r + offset)).bind (fun rw =>
              (atOpt rw (c + offcol)).map (fun v => acc2 + v))
          else pure acc2) acc)
    else pure acc) 0

/-- Embedding of `updateCell` from gol-par.cpp (lines 93-112): count the
neighbours, then read the centre cell `board.at(r).at(c)` and return
`((neighbours==2 || neighbours==3) && center) || (!center && neighbours==3)`
with C integer truthiness. -/
def updateCell (r c : Int) (board : Board) : Option Bool :=
  (neighbours r c board).bind (fun n =>
    (atOpt board r).bind (fun row =>
      (atOpt row c).map (fun center =>
        ((n == 2 || n == 3) && !(center == 0)) || ((center == 0) && n == 3))))

/-- Neighbour-counting loop of `updateCell` in gol-omp.cpp (lines 82-94);
its guard is written `((offcol != 0) || offset != 0)`, which is the same
condition gol-par.cpp writes as `(offcol || offset)`. -/
def neighboursOmp (r c : Int) (board : Board) : Option Int :=
  offRange.foldlM (fun acc offset =>
    if 0 ≤ r + offset ∧ r + offset < (board.length : Int) then
      (atOpt board (r + offset)).bind (fun row =>
        offRange.foldlM (fun acc2 offcol =>
          if (offcol ≠ 0 ∨ offset ≠ 0) ∧ 0 ≤ c + offcol ∧ c + offcol < (row.length : Int) then
            (atOpt board (r + offset)).bind (fun rw =>
              (atOpt rw (c + offcol)).map (fun v => acc2 + v))
          else pure acc2) acc)
    else pure acc) 0

/-- Embedding of `updateCell` from gol-omp.cpp (lines 80-98). -/
def updateCellOmp (r c : Int) (board : Board) : Option Bool :=
  (neighboursOmp r c board).bind (fun n =>
    (atOpt board r).bind (fun row =>
      (atOpt row c).map (fun center =>
        ((n == 2 || n == 3) && !(center == 0)) || ((center == 0) && n == 3))))

/-- Pure value of the inner (column) loop of the neighbour count: the
guarded reads never fail, so they are the plain list reads. -/
def innerPure (row : Row) (c offset : Int) (acc : Int) : Int :=
  offRange.foldl (fun acc2 offcol =>
    if (offcol ≠ 0 ∨ offset ≠ 0) ∧ 0 ≤ c + offcol ∧ c + offcol < (row.length : Int) then
      acc2 + row.getD (c + offcol).toNat 0
    else acc2) acc

/-- Pure value of the neighbour count of `updateCell`. -/
def neighboursPure (r c : Int) (board : Board) : Int :=
  offRange.foldl (fun acc offset =>
    if 0 ≤ r + offset ∧ r + offset < (board.length : Int) then
      innerPure (board.getD (r + offset).toNat []) c offset acc
    else acc) 0

/-- Pure value of `updateCell` (meaningful when `(r, c)` is on the board,
where the embedded `updateCell` returns it). -/
def updateCellPure (r c : Int) (board : Board) : Bool :=
  let n := neighboursPure r c board
  let center := (board.getD r.toNat []).getD c.toNat 0
  ((n == 2 || n == 3) && !(center == 0)) || ((center == 0) && n == 3)

/-- Contribution of column `q` of a fixed row to the neighbour count: the
cell value when `q` is inside the row, 0 otherwise. -/
def rowContrib (row : Row) (q : Int) : Int :=
  if 0 ≤ q ∧ q < (row.length : Int) then row.getD q.toNat 0 else 0

/-- Value of the board cell `(r, c)` with out-of-board positions reading
as `0`, as the specification describes clipping (spec section 4.1). -/
def cellAt (board : Board) (r c : Int) : Int :=
  if 0 ≤ r ∧ 0 ≤ c then (board.getD r.toNat []).getD c.toNat 0 else 0

/-- Spec-side neighbour sum: the sum of the states of the up-to-8 cells of
the 3x3 block centred on `(r, c)`, the centre excluded, positions outside
the board contributing 0 (spec section 4.1, no wraparound). -/
def specNeighbourSum (board : Board) (r c : Int) : Int :=
  cellAt board (r - 1) (c - 1) + cellAt board (r - 1) c + cellAt board (r - 1) (c + 1) +
  cellAt board r (c - 1) + cellAt board r (c + 1) +
  cellAt board (r + 1) (c - 1) + cellAt board (r + 1) c + cellAt board (r + 1) (c + 1)

/-- Spec-side transition rule (spec section 4.1): an alive cell survives
with neighbour count 2 or 3, a dead cell becomes alive with neighbour
count exactly 3, otherwise the cell is dead. -/
def lifeNext (board : Board) (r c : Int) : Bool :=
  if cellAt board r c ≠ 0 then
    specNeighbourSum board r c == 2 || specNeighbourSum board r c == 3
  else
    specNeighbourSum board r c == 3

/-- A board is rectangular with `ncols` columns. -/
def Rect (board : Board) (ncols : Nat) : Prop :=
  ∀ row ∈ board, row.length = ncols

instance (board : Board) (ncols : Nat) : Decidable (Rect board ncols) :=
  inferInstanceAs (Decidable (∀ row ∈ board, row.length = ncols))

/-- Every cell of the board is 0 or 1. -/
def Binary (board : Board) : Prop :=
  ∀ row ∈ board, ∀ x ∈ row, x = 0 ∨ x = 1

instance (board : Board) : Decidable (Binary board) :=
  inferInstanceAs (Decidable (∀ row ∈ board, ∀ x ∈ row, x = 0 ∨ x = 1))

/-- Every cell of the board is dead. -/
def AllDead (board : Board) : Prop :=
  ∀ row ∈ board, ∀ x ∈ row, x = 0

instance (board : Board) : Decidable (AllDead board) :=
  inferInstanceAs (Decidable (∀ row ∈ board, ∀ x ∈ row, x = 0))

/-- The C++ struct `Range` of gol-par.cpp (inclusive row span); the field
named `end` in the source is a Lean keyword, so it is called `stop` here. -/
structure Range where
  start : Int
  stop : Int

/-- Range construction loop of `updateBoard` in gol-par.cpp (lines 132-148):
`range_size = nrows / nworkers`, `rem = nrows % nworkers`; worker `i` starts
at 0 (for `i = 0`) or one past the previous range's end (`ranges.back()`,
defaulted here for the never-taken empty case), ends at
`start + range_size - 1` except that the last worker ends at `nrows - 1`,
and the first `rem` workers get one extra row. -/
def mkRanges (nrows nworkers : Nat) : List Range :=
  let range_size := nrows / nworkers
  let rem := nrows % nworkers
  (List.range nworkers).foldl (fun ranges i =>
    let start : Int := if i = 0 then 0 else (ranges.getLast?.getD ⟨0, 0⟩).stop + 1
    let stop : Int :=
      if i ≠ nworkers - 1 then start + (range_size : Int) - 1 else (nrows : Int) - 1
    let stop : Int := if i < rem then stop + 1 else stop
    ranges ++ [⟨start, stop⟩]) []

/-- Inner loop of `compute_chunk` in gol-par.cpp (lines 156-158): build
`new_row` by pushing `updateCell(r, i, board)` for each column `i` of `row`
(the C++ `push_back` of a `bool` into a `vector<int>` stores 0 or 1). -/
def computeRow (board : Board) (r : Int) (row : Row) : Option Row :=
  (List.range row.length).foldlM (fun new_row (i : Nat) =>
    (updateCell r (i : Int) board).map
      (fun b => new_row ++ [(if b then (1 : Int) else 0)])) []

/-- The row indices `range.start, ..., range.end` visited by the loop
`for (r = range.start; r <= range.end; r++)`. -/
def chunkRows (rg : Range) : List Int :=
  (List.range (rg.stop + 1 - rg.start).toNat).map (fun (j : Nat) => rg.start + (j : Int))

/-- Embedding of the lambda `compute_chunk` of gol-par.cpp (lines 151-161):
for each row index `r` of the range, read `row = board.at(r)`, compute the
new row, and write it with `new_board.at(r) = new_row`. -/
def compute_chunk (board : Board) (rg : Range) (new_board : List Row) : Option (List Row) :=
  (chunkRows rg).foldlM (fun nb r =>
    (atOpt board r).bind (fun row =>
      (computeRow board r row).bind (fun new_row => setAt nb r new_row))) new_board

/-- Embedding of `updateBoard` of gol-par.cpp (lines 125-172): `new_board`
starts as `board.size()` default (empty) rows, the ranges are built, one
thread runs `compute_chunk` per range, and after the join the new board
replaces the old.  The threads write disjoint row sets, so the joined
result is that of running the chunks in range order. -/
def updateBoard (board : Board) (nworkers : Nat) : Option Board :=
  (mkRanges board.length nworkers).foldlM (fun nb rg => compute_chunk board rg nb)
    (List.replicate board.length ([] : Row))

/-- Inner loop of the OpenMP `updateBoard` (gol-omp.cpp lines 120-122),
identical to the inner loop of `compute_chunk` but calling gol-omp.cpp's
`updateCell`. -/
def computeRowOmp (board : Board) (r : Int) (row : Row) : Option Row :=
  (List.range row.length).foldlM (fun new_row (i : Nat) =>
    (updateCellOmp r (i : Int) board).map
      (fun b => new_row ++ [(if b then (1 : Int) else 0)])) []

/-- The values of the `int r` loop counter in `for (r = 0; r < n; r++)`. -/
def intRange (n : Nat) : List Int :=
  (List.range n).map (fun (j : Nat) => (j : Int))

/-- Embedding of `updateBoard` of gol-omp.cpp (lines 110-128): an OpenMP
parallel-for over all row indices; each iteration reads `board.at(r)`,
computes the new row, and writes `new_board.at(r)`.  Iterations write
disjoint rows, so the result is that of running them in index order,
whatever the dynamic schedule. -/
def updateBoardOmp (board : Board) : Option Board :=
  (intRange board.length).foldlM (fun nb r =>
    (atOpt board r).bind (fun row =>
      (computeRowOmp board r row).bind (fun new_row => setAt nb r new_row)))
    (List.replicate board.length ([] : Row))

/-- Sequential reference step (spec section 8, determinism property): the
board obtained by applying `updateCell` to every cell of the prior board,
row by row, with no partitioning. -/
def seqUpdate (board : Board) : Option Board :=
  (List.range board.length).foldlM (fun nb (r : Nat) =>
    (atOpt board (r : Int)).bind (fun row =>
      (computeRow board (r : Int) row).map (fun new_row => nb ++ [new_row]))) []

/-- Pure value of the new row `r`. -/
def nextRowPure (board : Board) (r : Nat) : Row :=
  (List.range (board.getD r []).length).map
    (fun (c : Nat) => if updateCellPure (r : Int) (c : Int) board then (1 : Int) else 0)

/-- Pure value of the whole next board. -/
def nextBoardPure (board : Board) : Board :=
  (List.range board.length).map (fun r => nextRowPure board r)

/-- State of `new_board` once all rows below `t` have been written: row `r`
holds the new row for `r < t` and is still the default empty row above. -/
def thresholdBoard (board : Board) (t : Nat) : List Row :=
  (List.range board.length).map (fun r => if r < t then nextRowPure board r else [])

/-- First row of worker `k` under the static partition: workers `0..rem-1`
hold `base + 1` rows and the rest `base` rows, so worker `k` starts at
`k * base + min k rem`. -/
def partStart (nrows nworkers k : Nat) : Nat :=
  k * (nrows / nworkers) + min k (nrows % nworkers)

/-- Iterated simulation loop of gol-par.cpp's main (lines 221-229). -/
def parStepN (board : Board) (nw : Nat) : Nat → Option Board
  | 0 => some board
  | n + 1 => (updateBoard board nw).bind (fun b => parStepN b nw n)

/-- Iterated simulation loop of gol-omp.cpp's main (lines 170-178). -/
def ompStepN (board : Board) : Nat → Option Board
  | 0 => some board
  | n + 1 => (updateBoardOmp board).bind (fun b => ompStepN b n)

/-- The `k`-th constructed range (defaulted outside the list). -/
def rgAt (rs : List Range) (k : Nat) : Range :=
  rs.getD k ⟨0, 0⟩

/-- Pure `n`-step evolution of the board. -/
def nextBoardIter (board : Board) : Nat → Board
  | 0 => board
  | n + 1 => nextBoardIter (nextBoardPure board) n

/-- Worker count actually used by gol-par.cpp's main (lines 210-215): the
requested `nw` is capped at `nrows` before the simulation loop. -/
def effectiveWorkersPar (nrows nw : Int) : Int :=
  if nw > nrows then nrows else nw

/-- Worker count actually used by gol-omp.cpp's main (lines 151-186): `nw`
is passed to `updateBoard` unchanged; no capping is performed. -/
def effectiveWorkersOmp (nrows nw : Int) : Int :=
  nw

/-- Observable outcome of a run of `main`: the process exit code, whether
the usage message was printed, and whether the elapsed-time-in-msec line
was printed.  Wall-clock timing itself is external to the model. -/
structure MainOutcome where
  exitCode : Int
  usagePrinted : Bool
  elapsedPrinted : Bool
deriving DecidableEq

/-- Control flow of `main` in gol-par.cpp (lines 195-236): with a wrong
argument count the usage line is printed and -1 returned; otherwise the
worker count is capped at `nrows`, the simulation runs `iters` steps, the
elapsed milliseconds are printed and 0 returned.  The board produced by
`initializeBoard` (an excluded collaborator using the C library generator)
is a parameter; `none` models a run aborted by an uncaught exception. -/
def mainPar (argc : Nat) (nrows iters nw : Nat) (board : Board) : Option MainOutcome :=
  if argc ≠ 7 then some ⟨-1, true, false⟩
  else
    let nw2 := if nw > nrows then nrows else nw
    (parStepN board nw2 iters).map (fun _ => ⟨0, false, true⟩)

/-- Control flow of `main` in gol-omp.cpp (lines 151-186): as `mainPar`
but with no worker capping (`updateBoardOmp`'s result does not depend on
the worker count). -/
def mainOmp (argc : Nat) (iters : Nat) (board : Board) : Option MainOutcome :=
  if argc ≠ 7 then some ⟨-1, true, false⟩
  else (ompStepN board iters).map (fun _ => ⟨0, false, true⟩)

/-- A concrete 3x3 binary board used to instantiate the theorems. -/
def wb : Board := [[0, 1, 0], [1, 1, 0], [0, 0, 1]]

/-- A concrete 3x3 all-dead board. -/
def wdead : Board := [[0, 0, 0], [0, 0, 0], [0, 0, 0]]

/-- A concrete 3x3 board with cells outside {0, 1}. -/
def wnb : Board := [[5, -2, 7], [0, 3, 0], [1, 1, 1]]

theorem atOpt_some {α : Type} (xs : List α) (i : Int) (d : α) (h0 : 0 ≤ i)
    (h1 : i.toNat < xs.length) : atOpt xs i = some (xs.getD i.toNat d) := by
  rw [atOpt, if_pos h0, List.getElem?_eq_getElem h1, List.getD_eq_getElem?_getD,
    List.getElem?_eq_getElem h1]
  rfl

theorem atOpt_nonneg {α : Type} (xs : List α) (i : Int) (h0 : 0 ≤ i) :
    atOpt xs i = xs[i.toNat]? :=
  if_pos h0

theorem innerFoldM_aux (row : Row) (c offset : Int) :
    ∀ (xs : List Int) (acc : Int),
      (List.foldlM (fun acc2 offcol =>
        if (offcol ≠ 0 ∨ offset ≠ 0) ∧ 0 ≤ c + offcol ∧ c + offcol < (row.length : Int) then
          (some row).bind (fun rw =>
            (atOpt rw (c + offcol)).map (fun v => acc2 + v))
        else pure acc2) acc xs : Option Int)
      = some (List.foldl (fun acc2 offcol =>
          if (offcol ≠ 0 ∨ offset ≠ 0) ∧ 0 ≤ c + offcol ∧ c + offcol < (row.length : Int) then
            acc2 + row.getD (c + offcol).toNat 0
          else acc2) acc xs) := by
  intro xs
  induction xs with
  | nil => intro acc; rfl
  | cons x xs ih =>
    intro acc
    simp only [List.foldlM_cons, List.foldl_cons]
    by_cases h : (x ≠ 0 ∨ offset ≠ 0) ∧ 0 ≤ c + x ∧ c + x < (row.length : Int)
    · rw [if_pos h, if_pos h, Option.some_bind,
        atOpt_some row (c + x) 0 h.2.1 (by omega), Option.map_some',
        Option.bind_eq_bind', Option.some_bind]
      exact ih (acc + row.getD (c + x).toNat 0)
    · rw [if_neg h, if_neg h]
      simp only [Option.pure_def, Option.bind_eq_bind', Option.some_bind]
      exact ih acc

theorem innerFoldM_eq (row : Row) (c offset : Int) (acc : Int) :
    (offRange.foldlM (fun acc2 offcol =>
      if (offcol ≠ 0 ∨ offset ≠ 0) ∧ 0 ≤ c + offcol ∧ c + offcol < (row.length : Int) then
        (some row).bind (fun rw =>
          (atOpt rw (c + offcol)).map (fun v => acc2 + v))
      else pure acc2) acc : Option Int)
    = some (innerPure row c offset acc) :=
  innerFoldM_aux row c offset offRange acc

theorem outerFoldM_eq (board : Board) (r c : Int) :
    ∀ (xs : List Int) (acc : Int),
      (List.foldlM (fun acc offset =>
        if 0 ≤ r + offset ∧ r + offset < (board.length : Int) then
          (atOpt board (r + offset)).bind (fun row =>
            offRange.foldlM (fun acc2 offcol =>
              if (offcol ≠ 0 ∨ offset ≠ 0) ∧ 0 ≤ c + offcol ∧
                  c + offcol < (row.length : Int) then
                (atOpt board (r + offset)).bind (fun rw =>
                  (atOpt rw (c + offcol)).map (fun v => acc2 + v))
              else pure acc2) acc)
        else pure acc) acc xs : Option Int)
      = some (List.foldl (fun acc offset =>
          if 0 ≤ r + offset ∧ r + offset < (board.length : Int) then
            innerPure (board.getD (r + offset).toNat []) c offset acc
          else acc) acc xs) := by
  intro xs
  induction xs with
  | nil => intro acc; rfl
  | cons x xs ih =>
    intro acc
    simp only [List.foldlM_cons, List.foldl_cons]
    by_cases h : 0 ≤ r + x ∧ r + x < (board.length : Int)
    · rw [if_pos h, if_pos h, atOpt_some board (r + x) [] h.1 (by omega),
        Option.some_bind, innerFoldM_eq, Option.bind_eq_bind', Option.some_bind]
      exact ih (innerPure (board.getD (r + x).toNat []) c x acc)
    · rw [if_neg h, if_neg h]
      simp only [Option.pure_def, Option.bind_eq_bind', Option.some_bind]
      exact ih acc

theorem neighbours_eq (r c : Int) (board : Board) :
    neighbours r c board = some (neighboursPure r c board) :=
  outerFoldM_eq board r c offRange 0

theorem updateCell_eq (board : Board) (r c : Int) (h0 : 0 ≤ r) (h1 : r.toNat < board.length)
    (h2 : 0 ≤ c) (h3 : c.toNat < (board.getD r.toNat []).length) :
    updateCell r c board = some (updateCellPure r c board) := by
  rw [updateCell, neighbours_eq, atOpt_some board r [] h0 h1]
  simp only [Option.some_bind]
  rw [atOpt_some (board.getD r.toNat []) c 0 h2 h3]
  rfl

theorem innerPure_term (row : Row) (c offset acc offcol : Int) (h : offcol ≠ 0 ∨ offset ≠ 0) :
    (if (offcol ≠ 0 ∨ offset ≠ 0) ∧ 0 ≤ c + offcol ∧ c + offcol < (row.length : Int) then
      acc + row.getD (c + offcol).toNat 0
    else acc) = acc + rowContrib row (c + offcol) := by
  unfold rowContrib
  by_cases hb : 0 ≤ c + offcol ∧ c + offcol < (row.length : Int)
  · rw [if_pos ⟨h, hb.1, hb.2⟩, if_pos hb]
  · rw [if_neg (fun hh => hb ⟨hh.2.1, hh.2.2⟩), if_neg hb, add_zero]

theorem innerPure_center (row : Row) (c acc : Int) :
    (if (((0 : Int) ≠ 0 ∨ (0 : Int) ≠ 0) ∧ 0 ≤ c + 0 ∧ c + 0 < (row.length : Int)) then
      acc + row.getD (c + 0).toNat 0
    else acc) = acc := by
  rw [if_neg]
  intro hh
  rcases hh.1 with h | h <;> exact h rfl

theorem innerPure_expand_off (row : Row) (c offset : Int) (h : offset ≠ 0) (acc : Int) :
    innerPure row c offset acc
      = acc + rowContrib row (c + -1) + rowContrib row (c + 0) + rowContrib row (c + 1) := by
  simp only [innerPure, offRange, List.foldl_cons, List.foldl_nil]
  rw [innerPure_term row c offset acc (-1) (Or.inl (by norm_num)),
    innerPure_term row c offset _ 0 (Or.inr h),
    innerPure_term row c offset _ 1 (Or.inl (by norm_num))]

theorem innerPure_expand_zero (row : Row) (c acc : Int) :
    innerPure row c 0 acc = acc + rowContrib row (c + -1) + rowContrib row (c + 1) := by
  simp only [innerPure, offRange, List.foldl_cons, List.foldl_nil]
  rw [innerPure_term row c 0 acc (-1) (Or.inl (by norm_num)), innerPure_center,
    innerPure_term row c 0 _ 1 (Or.inl (by norm_num))]

theorem guarded_rowContrib (board : Board) (j q : Int) :
    (if 0 ≤ j ∧ j < (board.length : Int) then rowContrib (board.getD j.toNat []) q else 0)
      = cellAt board j q := by
  unfold rowContrib cellAt
  by_cases hj : 0 ≤ j ∧ j < (board.length : Int)
  · rw [if_pos hj]
    by_cases hq : 0 ≤ q ∧ q < (((board.getD j.toNat []).length : Nat) : Int)
    · rw [if_pos hq, if_pos ⟨hj.1, hq.1⟩]
    · rw [if_neg hq]
      by_cases hq2 : 0 ≤ j ∧ 0 ≤ q
      · rw [if_pos hq2]
        have hlen : (board.getD j.toNat []).length ≤ q.toNat := by omega
        rw [List.getD_eq_getElem?_getD, List.getElem?_eq_none hlen, Option.getD_none]
      · rw [if_neg hq2]
  · rw [if_neg hj]
    by_cases hq2 : 0 ≤ j ∧ 0 ≤ q
    · rw [if_pos hq2]
      have hlen : board.length ≤ j.toNat := by omega
      rw [List.getD_eq_getElem?_getD (l := board), List.getElem?_eq_none hlen, Option.getD_none]
      rfl
    · rw [if_neg hq2]

theorem cellAt_of_inbounds (board : Board) (j q : Int) (hj : 0 ≤ j ∧ j < (board.length : Int)) :
    rowContrib (board.getD j.toNat []) q = cellAt board j q := by
  rw [← guarded_rowContrib, if_pos hj]

theorem cellAt_of_outbounds (board : Board) (j q : Int)
    (hj : ¬(0 ≤ j ∧ j < (board.length : Int))) : cellAt board j q = 0 := by
  rw [← guarded_rowContrib, if_neg hj]

theorem outer_step (board : Board) (r c acc offset : Int) (h : offset ≠ 0) :
    (if 0 ≤ r + offset ∧ r + offset < (board.length : Int) then
      innerPure (board.getD (r + offset).toNat []) c offset acc
    else acc)
    = acc + cellAt board (r + offset) (c + -1) + cellAt board (r + offset) (c + 0) +
        cellAt board (r + offset) (c + 1) := by
  by_cases hg : 0 ≤ r + offset ∧ r + offset < (board.length : Int)
  · rw [if_pos hg, innerPure_expand_off _ _ _ h acc, cellAt_of_inbounds board _ _ hg,
      cellAt_of_inbounds board _ _ hg, cellAt_of_inbounds board _ _ hg]
  · rw [if_neg hg, cellAt_of_outbounds board _ _ hg, cellAt_of_outbounds board _ _ hg,
      cellAt_of_outbounds board _ _ hg, add_zero, add_zero, add_zero]

theorem outer_step_zero (board : Board) (r c acc : Int) :
    (if 0 ≤ r + 0 ∧ r + 0 < (board.length : Int) then
      innerPure (board.getD (r + 0).toNat []) c 0 acc
    else acc)
    = acc + cellAt board (r + 0) (c + -1) + cellAt board (r + 0) (c + 1) := by
  by_cases hg : 0 ≤ r + 0 ∧ r + 0 < (board.length : Int)
  · rw [if_pos hg, innerPure_expand_zero, cellAt_of_inbounds board _ _ hg,
      cellAt_of_inbounds board _ _ hg]
  · rw [if_neg hg, cellAt_of_outbounds board _ _ hg, cellAt_of_outbounds board _ _ hg,
      add_zero, add_zero]

theorem neighboursPure_eq_spec (r c : Int) (board : Board) :
    neighboursPure r c board = specNeighbourSum board r c := by
  simp only [neighboursPure, offRange, List.foldl_cons, List.foldl_nil]
  rw [outer_step board r c 0 (-1) (by norm_num), outer_step_zero board r c _,
    outer_step board r c _ 1 (by norm_num)]
  unfold specNeighbourSum
  simp only [zero_add, add_zero, sub_eq_add_neg]

theorem updateCellPure_eq_lifeNext (board : Board) (r c : Int) (h0 : 0 ≤ r) (h2 : 0 ≤ c) :
    updateCellPure r c board = lifeNext board r c := by
  unfold updateCellPure lifeNext
  rw [neighboursPure_eq_spec]
  have hc : (board.getD r.toNat []).getD c.toNat 0 = cellAt board r c := by
    unfold cellAt
    rw [if_pos ⟨h0, h2⟩]
  rw [hc]
  simp only []
  by_cases h : cellAt board r c ≠ 0
  · rw [if_pos h]
    have hb : (cellAt board r c == 0) = false := by simpa using h
    rw [hb]
    simp
  · rw [if_neg h]
    push_neg at h
    have hb : (cellAt board r c == 0) = true := by simpa using h
    rw [hb]
    simp

theorem updateCellOmp_eq_updateCell : updateCellOmp = updateCell := rfl

theorem computeRowOmp_eq_computeRow : computeRowOmp = computeRow := rfl

theorem partStart_zero (n w : Nat) : partStart n w 0 = 0 := by
  simp [partStart]

theorem partStart_succ (n w k : Nat) :
    partStart n w (k + 1) = partStart n w k + n / w + (if k < n % w then 1 else 0) := by
  unfold partStart
  rw [Nat.succ_mul]
  by_cases hk : k < n % w
  · rw [if_pos hk]
    omega
  · rw [if_neg hk]
    omega

theorem partStart_top (n w : Nat) (h1 : 1 ≤ w) : partStart n w w = n := by
  unfold partStart
  have hm : n % w < w := Nat.mod_lt _ h1
  rw [min_eq_right hm.le]
  exact Nat.div_add_mod n w

theorem partStart_mono (n w : Nat) {k l : Nat} (hkl : k ≤ l) :
    partStart n w k ≤ partStart n w l := by
  unfold partStart
  exact Nat.add_le_add (Nat.mul_le_mul_right _ hkl) (min_le_min_right _ hkl)

theorem partStart_le (n w k : Nat) (h1 : 1 ≤ w) (hk : k ≤ w) : partStart n w k ≤ n :=
  (partStart_mono n w hk).trans (partStart_top n w h1).le

theorem partStart_lt_succ (n w k : Nat) (hbase : 1 ≤ n / w) :
    partStart n w k < partStart n w (k + 1) := by
  rw [partStart_succ]
  by_cases hk : k < n % w
  · rw [if_pos hk]; omega
  · rw [if_neg hk]; omega

theorem computeRow_aux (board : Board) (rn : Nat) (h1 : rn < board.length) :
    ∀ (xs : List Nat), (∀ i ∈ xs, i < (board.getD rn []).length) → ∀ (acc : Row),
      (List.foldlM (fun new_row (i : Nat) =>
        (updateCell (rn : Int) (i : Int) board).map
          (fun b => new_row ++ [(if b then (1 : Int) else 0)])) acc xs : Option Row)
      = some (acc ++ xs.map
          (fun (i : Nat) =>
            if updateCellPure (rn : Int) (i : Int) board then (1 : Int) else 0)) := by
  intro xs
  induction xs with
  | nil =>
    intro _ acc
    simp only [List.foldlM_nil, List.map_nil, List.append_nil]
    rfl
  | cons x xs ih =>
    intro hmem acc
    simp only [List.foldlM_cons, List.map_cons]
    have hx : x < (board.getD rn []).length := hmem x (by simp)
    have hcell := updateCell_eq board (rn : Int) (x : Int) (by omega)
      (by omega) (by omega) (by simpa using hx)
    rw [hcell, Option.map_some', Option.bind_eq_bind', Option.some_bind]
    rw [ih (fun i hi => hmem i (by simp [hi]))
      (acc ++ [if updateCellPure (rn : Int) (x : Int) board then (1 : Int) else 0])]
    simp

theorem computeRow_eq (board : Board) (rn : Nat) (h1 : rn < board.length) :
    computeRow board (rn : Int) (board.getD rn []) = some (nextRowPure board rn) := by
  unfold computeRow nextRowPure
  rw [computeRow_aux board rn h1 (List.range (board.getD rn []).length)
    (fun i hi => List.mem_range.mp hi) []]
  simp

theorem length_thresholdBoard (board : Board) (t : Nat) :
    (thresholdBoard board t).length = board.length := by
  simp [thresholdBoard]

theorem thresholdBoard_getElem? (board : Board) (t n : Nat) :
    (thresholdBoard board t)[n]?
      = if n < board.length then some (if n < t then nextRowPure board n else []) else none := by
  unfold thresholdBoard
  by_cases hn : n < board.length
  · rw [List.getElem?_map, List.getElem?_range hn, if_pos hn]
    rfl
  · rw [List.getElem?_map, List.getElem?_eq_none (by simpa using Nat.le_of_not_lt hn),
      if_neg hn]
    rfl

theorem thresholdBoard_set (board : Board) (t : Nat) (ht : t < board.length) :
    (thresholdBoard board t).set t (nextRowPure board t) = thresholdBoard board (t + 1) := by
  apply List.ext_getElem?
  intro n
  by_cases hnt : n = t
  · subst hnt
    rw [thresholdBoard_getElem?, if_pos ht, List.getElem?_set_self
      (by rw [length_thresholdBoard]; exact ht)]
    rw [if_pos (by omega)]
  · rw [List.getElem?_set_ne (fun hh => hnt hh.symm), thresholdBoard_getElem?,
      thresholdBoard_getElem?]
    by_cases hn : n < board.length
    · rw [if_pos hn, if_pos hn]
      have hiff : (n < t) ↔ (n < t + 1) := by omega
      simp only [hiff]
    · rw [if_neg hn, if_neg hn]

theorem chunk_body_step (board : Board) (t : Nat) (ht : t < board.length) :
    ((atOpt board (t : Int)).bind (fun row =>
      (computeRow board (t : Int) row).bind (fun new_row =>
        setAt (thresholdBoard board t) (t : Int) new_row)))
      = some (thresholdBoard board (t + 1)) := by
  have htn : ((t : Int)).toNat = t := by omega
  rw [atOpt_some board (t : Int) [] (by omega) (by omega), Option.some_bind, htn,
    computeRow_eq board t ht, Option.some_bind]
  unfold setAt
  rw [if_pos ⟨by omega, by rw [length_thresholdBoard]; omega⟩]
  rw [htn, thresholdBoard_set board t ht]

theorem chunk_fold (board : Board) :
    ∀ (cnt lo : Nat), lo + cnt ≤ board.length →
      (List.foldlM (fun nb (r : Int) =>
        (atOpt board r).bind (fun row =>
          (computeRow board r row).bind (fun new_row => setAt nb r new_row)))
        (thresholdBoard board lo)
        ((List.range cnt).map (fun (j : Nat) => ((lo : Int) + (j : Int)))) : Option (List Row))
      = some (thresholdBoard board (lo + cnt)) := by
  intro cnt
  induction cnt with
  | zero =>
    intro lo h
    simp only [List.range_zero, List.map_nil, List.foldlM_nil, Nat.add_zero]
    rfl
  | succ cnt ih =>
    intro lo h
    rw [List.range_succ_eq_map]
    simp only [List.map_cons, List.map_map, List.foldlM_cons, Nat.cast_zero, add_zero]
    rw [chunk_body_step board lo (by omega), Option.bind_eq_bind', Option.some_bind]
    rw [show ((fun (j : Nat) => (lo : Int) + (j : Int)) ∘ Nat.succ)
        = (fun (j : Nat) => (((lo + 1 : Nat)) : Int) + (j : Int)) from by
      funext j
      simp only [Function.comp]
      push_cast
      ring]
    rw [ih (lo + 1) (by omega), show (lo + 1) + cnt = lo + (cnt + 1) from by omega]

theorem replicate_eq_threshold (board : Board) :
    List.replicate board.length ([] : Row) = thresholdBoard board 0 := by
  unfold thresholdBoard
  rw [show (fun (r : Nat) => if r < 0 then nextRowPure board r else ([] : Row))
      = (fun (_ : Nat) => ([] : Row)) from by funext r; simp]
  simp [List.map_const]

theorem threshold_full (board : Board) :
    thresholdBoard board board.length = nextBoardPure board := by
  unfold thresholdBoard nextBoardPure
  apply List.map_congr_left
  intro r hr
  rw [if_pos (List.mem_range.mp hr)]

theorem mapg_getLast (n w j : Nat) :
    (((List.range (j + 1)).map (fun k =>
      (⟨(partStart n w k : Int), (partStart n w (k + 1) : Int) - 1⟩ : Range))).getLast?.getD
        ⟨0, 0⟩)
    = ⟨(partStart n w j : Int), (partStart n w (j + 1) : Int) - 1⟩ := by
  have hr : List.range (j + 1) = List.range j ++ [j] := List.range_succ j
  rw [hr, List.map_append]
  simp [List.getLast?_concat]

theorem start_eq (n w j : Nat) :
    (if j = 0 then (0 : Int) else
      ((((List.range j).map (fun k =>
        (⟨(partStart n w k : Int), (partStart n w (k + 1) : Int) - 1⟩ : Range))).getLast?.getD
          ⟨0, 0⟩).stop + 1))
    = (partStart n w j : Int) := by
  by_cases hj0 : j = 0
  · subst hj0
    rw [if_pos rfl, partStart_zero]
    norm_num
  · rw [if_neg hj0]
    obtain ⟨j', rfl⟩ : ∃ j', j = j' + 1 := ⟨j - 1, by omega⟩
    rw [mapg_getLast]
    show (partStart n w (j' + 1) : Int) - 1 + 1 = _
    ring

theorem stop_eq (n w j : Nat) (h1 : 1 ≤ w) (hj : j < w) :
    (if j < n % w then
      (if j ≠ w - 1 then (partStart n w j : Int) + ((n / w : Nat) : Int) - 1
        else (n : Int) - 1) + 1
    else
      (if j ≠ w - 1 then (partStart n w j : Int) + ((n / w : Nat) : Int) - 1
        else (n : Int) - 1))
    = (partStart n w (j + 1) : Int) - 1 := by
  have hsucc := partStart_succ n w j
  by_cases hlast : j ≠ w - 1
  · by_cases hrem : j < n % w
    · rw [if_pos hrem, if_pos hlast]
      rw [if_pos hrem] at hsucc
      rw [hsucc]
      push_cast
      ring
    · rw [if_neg hrem, if_pos hlast]
      rw [if_neg hrem] at hsucc
      rw [hsucc]
      push_cast
      ring
  · have hrem : ¬(j < n % w) := by
      have hm : n % w < w := Nat.mod_lt _ h1
      omega
    rw [if_neg hrem, if_neg hlast]
    have hjw : j + 1 = w := by omega
    rw [hjw, partStart_top n w h1]

theorem mkRanges_aux (n w : Nat) (h1 : 1 ≤ w) :
    ∀ (j : Nat), j ≤ w →
      ((List.range j).foldl (fun ranges (i : Nat) =>
        ranges ++ [(⟨if i = 0 then 0 else (ranges.getLast?.getD ⟨0, 0⟩).stop + 1,
          if i < n % w then
            (if i ≠ w - 1 then
              (if i = 0 then 0 else (ranges.getLast?.getD ⟨0, 0⟩).stop + 1)
                + ((n / w : Nat) : Int) - 1
            else (n : Int) - 1) + 1
          else
            (if i ≠ w - 1 then
              (if i = 0 then 0 else (ranges.getLast?.getD ⟨0, 0⟩).stop + 1)
                + ((n / w : Nat) : Int) - 1
            else (n : Int) - 1)⟩ : Range)]) [])
      = (List.range j).map (fun k =>
          (⟨(partStart n w k : Int), (partStart n w (k + 1) : Int) - 1⟩ : Range)) := by
  intro j
  induction j with
  | zero => intro _; rfl
  | succ j ihj =>
    intro hj
    have hr : List.range (j + 1) = List.range j ++ [j] := List.range_succ j
    rw [hr, List.foldl_append, List.map_append, ihj (by omega)]
    simp only [List.foldl_cons, List.foldl_nil, List.map_cons, List.map_nil]
    congr 1
    rw [start_eq n w j, stop_eq n w j h1 (by omega)]

theorem mkRanges_closed (n w : Nat) (h1 : 1 ≤ w) :
    mkRanges n w = (List.range w).map (fun k =>
      (⟨(partStart n w k : Int), (partStart n w (k + 1) : Int) - 1⟩ : Range)) :=
  mkRanges_aux n w h1 w le_rfl

theorem chunk_step (board : Board) (nw j : Nat) (h1 : 1 ≤ nw) (hj : j + 1 ≤ nw)
    (h2 : nw ≤ board.length) :
    compute_chunk board
      ⟨(partStart board.length nw j : Int), (partStart board.length nw (j + 1) : Int) - 1⟩
      (thresholdBoard board (partStart board.length nw j))
    = some (thresholdBoard board (partStart board.length nw (j + 1))) := by
  have hmono : partStart board.length nw j ≤ partStart board.length nw (j + 1) :=
    partStart_mono _ _ (by omega)
  have hup : partStart board.length nw (j + 1) ≤ board.length :=
    partStart_le board.length nw (j + 1) h1 hj
  unfold compute_chunk chunkRows
  dsimp only
  rw [show (((partStart board.length nw (j + 1) : Int) - 1 + 1
      - (partStart board.length nw j : Int)).toNat)
      = partStart board.length nw (j + 1) - partStart board.length nw j from by omega]
  rw [chunk_fold board (partStart board.length nw (j + 1) - partStart board.length nw j)
    (partStart board.length nw j) (by omega)]
  rw [show partStart board.length nw j
      + (partStart board.length nw (j + 1) - partStart board.length nw j)
      = partStart board.length nw (j + 1) from by omega]

theorem ranges_fold (board : Board) (nw : Nat) (h1 : 1 ≤ nw) (h2 : nw ≤ board.length) :
    ∀ (j : Nat), j ≤ nw →
      (((List.range j).map (fun k =>
        (⟨(partStart board.length nw k : Int),
          (partStart board.length nw (k + 1) : Int) - 1⟩ : Range))).foldlM
        (fun nb rg => compute_chunk board rg nb) (thresholdBoard board 0) : Option (List Row))
      = some (thresholdBoard board (partStart board.length nw j)) := by
  intro j
  induction j with
  | zero =>
    intro _
    rw [partStart_zero]
    rfl
  | succ j ihj =>
    intro hj
    have hr : List.range (j + 1) = List.range j ++ [j] := List.range_succ j
    rw [hr, List.map_append, List.foldlM_append, ihj (by omega)]
    simp only [List.map_cons, List.map_nil, List.foldlM_cons, List.foldlM_nil,
      Option.bind_eq_bind', Option.some_bind]
    rw [chunk_step board nw j h1 hj h2]
    rfl

theorem updateBoard_eq (board : Board) (nw : Nat) (h1 : 1 ≤ nw) (h2 : nw ≤ board.length) :
    updateBoard board nw = some (nextBoardPure board) := by
  unfold updateBoard
  rw [mkRanges_closed board.length nw h1, replicate_eq_threshold,
    ranges_fold board nw h1 h2 nw le_rfl, partStart_top board.length nw h1, threshold_full]

theorem updateBoardOmp_eq (board : Board) :
    updateBoardOmp board = some (nextBoardPure board) := by
  unfold updateBoardOmp intRange
  simp only [computeRowOmp_eq_computeRow]
  rw [replicate_eq_threshold]
  rw [show (fun (j : Nat) => (j : Int)) = (fun (j : Nat) => ((0 : Nat) : Int) + (j : Int))
    from by funext j; push_cast; ring]
  rw [chunk_fold board board.length 0 (by omega)]
  rw [show 0 + board.length = board.length from by omega, threshold_full]

theorem seqUpdate_aux (board : Board) :
    ∀ (xs : List Nat), (∀ r ∈ xs, r < board.length) → ∀ (acc : Board),
      (List.foldlM (fun nb (r : Nat) =>
        (atOpt board (r : Int)).bind (fun row =>
          (computeRow board (r : Int) row).map (fun new_row => nb ++ [new_row]))) acc xs
        : Option Board)
      = some (acc ++ xs.map (fun r => nextRowPure board r)) := by
  intro xs
  induction xs with
  | nil =>
    intro _ acc
    simp only [List.foldlM_nil, List.map_nil, List.append_nil]
    rfl
  | cons x xs ih =>
    intro hmem acc
    have hx : x < board.length := hmem x (by simp)
    have hxn : ((x : Int)).toNat = x := by omega
    simp only [List.foldlM_cons, List.map_cons]
    rw [atOpt_some board (x : Int) [] (by omega) (by omega), Option.some_bind, hxn,
      computeRow_eq board x hx, Option.map_some', Option.bind_eq_bind', Option.some_bind]
    rw [ih (fun r hr => hmem r (by simp [hr])) (acc ++ [nextRowPure board x])]
    simp

theorem seqUpdate_eq (board : Board) :
    seqUpdate board = some (nextBoardPure board) := by
  unfold seqUpdate nextBoardPure
  rw [seqUpdate_aux board (List.range board.length)
    (fun r hr => List.mem_range.mp hr) []]
  simp

theorem length_nextRowPure (board : Board) (r : Nat) :
    (nextRowPure board r).length = (board.getD r []).length := by
  simp [nextRowPure]

theorem length_nextBoardPure (board : Board) :
    (nextBoardPure board).length = board.length := by
  simp [nextBoardPure]

theorem nextBoardPure_getD (board : Board) (r : Nat) (hr : r < board.length) :
    (nextBoardPure board).getD r [] = nextRowPure board r := by
  unfold nextBoardPure
  rw [List.getD_eq_getElem?_getD, List.getElem?_map, List.getElem?_range hr]
  rfl

theorem getD_mem {α : Type} (xs : List α) (k : Nat) (d : α) (hk : k < xs.length) :
    xs.getD k d ∈ xs := by
  rw [List.getD_eq_getElem?_getD, List.getElem?_eq_getElem hk]
  exact List.getElem_mem hk

theorem parStepN_eq (board : Board) (nw : Nat) (h1 : 1 ≤ nw) (h2 : nw ≤ board.length) :
    ∀ n, parStepN board nw n = some (nextBoardIter board n) := by
  intro n
  induction n generalizing board with
  | zero => rfl
  | succ n ih =>
    show (updateBoard board nw).bind (fun b => parStepN b nw n) = _
    rw [updateBoard_eq board nw h1 h2, Option.some_bind,
      ih (nextBoardPure board) (by rw [length_nextBoardPure]; exact h2)]
    rfl

theorem ompStepN_eq (board : Board) :
    ∀ n, ompStepN board n = some (nextBoardIter board n) := by
  intro n
  induction n generalizing board with
  | zero => rfl
  | succ n ih =>
    show (updateBoardOmp board).bind (fun b => ompStepN b n) = _
    rw [updateBoardOmp_eq board, Option.some_bind, ih (nextBoardPure board)]
    rfl

theorem rect_nextBoardPure (board : Board) (ncols : Nat) (hrect : Rect board ncols) :
    Rect (nextBoardPure board) ncols := by
  intro row hrow
  unfold nextBoardPure at hrow
  rw [List.mem_map] at hrow
  obtain ⟨r, hr, rfl⟩ := hrow
  rw [length_nextRowPure]
  exact hrect _ (getD_mem board r [] (List.mem_range.mp hr))

theorem binary_nextBoardPure (board : Board) : Binary (nextBoardPure board) := by
  intro row hrow x hx
  unfold nextBoardPure at hrow
  rw [List.mem_map] at hrow
  obtain ⟨r, _, rfl⟩ := hrow
  unfold nextRowPure at hx
  rw [List.mem_map] at hx
  obtain ⟨c, _, rfl⟩ := hx
  by_cases hb : updateCellPure (r : Int) (c : Int) board
  · right
    rw [if_pos hb]
  · left
    rw [if_neg hb]

theorem getD_zero_of_allZero {row : Row} (h : ∀ x ∈ row, x = 0) (k : Nat) :
    row.getD k 0 = 0 := by
  by_cases hk : k < row.length
  · rw [List.getD_eq_getElem?_getD, List.getElem?_eq_getElem hk]
    exact h _ (List.getElem_mem hk)
  · rw [List.getD_eq_getElem?_getD, List.getElem?_eq_none (by omega), Option.getD_none]

theorem row_of_allDead {board : Board} (h : AllDead board) (k : Nat) :
    ∀ x ∈ board.getD k [], x = 0 := by
  by_cases hk : k < board.length
  · exact h _ (getD_mem board k [] hk)
  · intro x hx
    rw [List.getD_eq_getElem?_getD, List.getElem?_eq_none (by omega)] at hx
    simp at hx

theorem cellAt_allDead (board : Board) (h : AllDead board) (r c : Int) :
    cellAt board r c = 0 := by
  unfold cellAt
  by_cases hrc : 0 ≤ r ∧ 0 ≤ c
  · rw [if_pos hrc]
    exact getD_zero_of_allZero (row_of_allDead h r.toNat) c.toNat
  · rw [if_neg hrc]

theorem updateCellPure_allDead (board : Board) (h : AllDead board) (r c : Int) :
    updateCellPure r c board = false := by
  have hn : specNeighbourSum board r c = 0 := by
    unfold specNeighbourSum
    rw [cellAt_allDead board h, cellAt_allDead board h, cellAt_allDead board h,
      cellAt_allDead board h, cellAt_allDead board h, cellAt_allDead board h,
      cellAt_allDead board h, cellAt_allDead board h]
    norm_num
  have hc : (board.getD r.toNat []).getD c.toNat 0 = 0 :=
    getD_zero_of_allZero (row_of_allDead h r.toNat) c.toNat
  simp only [updateCellPure]
  rw [neighboursPure_eq_spec, hn, hc]
  decide

theorem allDead_nextBoardPure (board : Board) (h : AllDead board) :
    AllDead (nextBoardPure board) := by
  intro row hrow x hx
  unfold nextBoardPure at hrow
  rw [List.mem_map] at hrow
  obtain ⟨r, _, rfl⟩ := hrow
  unfold nextRowPure at hx
  rw [List.mem_map] at hx
  obtain ⟨c, _, rfl⟩ := hx
  rw [updateCellPure_allDead board h]
  rfl

theorem allDead_nextBoardIter (board : Board) (h : AllDead board) :
    ∀ n, AllDead (nextBoardIter board n) := by
  intro n
  induction n generalizing board with
  | zero => exact h
  | succ n ih => exact ih (nextBoardPure board) (allDead_nextBoardPure board h)

theorem exists_cover (n w : Nat) :
    ∀ (l : Nat) (x : Nat), x < partStart n w l →
      ∃ k, k < l ∧ partStart n w k ≤ x ∧ x < partStart n w (k + 1) := by
  intro l
  induction l with
  | zero =>
    intro x hx
    rw [partStart_zero] at hx
    omega
  | succ l ih =>
    intro x hx
    by_cases hxl : x < partStart n w l
    · obtain ⟨k, hk, h⟩ := ih x hxl
      exact ⟨k, by omega, h⟩
    · exact ⟨l, by omega, by omega, hx⟩

theorem rgAt_closed (n w : Nat) (h1 : 1 ≤ w) (k : Nat) (hk : k < w) :
    rgAt (mkRanges n w) k
      = ⟨(partStart n w k : Int), (partStart n w (k + 1) : Int) - 1⟩ := by
  rw [rgAt, mkRanges_closed n w h1, List.getD_eq_getElem?_getD, List.getElem?_map,
    List.getElem?_range hk]
  rfl

/-- Claim C1: for every rectangular binary board and in-range cell `(r, c)`,
`updateCell` (in both versions) returns the Game of Life next state: the
up-to-8 in-board neighbours are summed with no wraparound, an alive cell
survives iff the count is 2 or 3, and a dead cell becomes alive iff the
count is exactly 3. -/
theorem C1_updateCell_life_rule (board : Board) (ncols : Nat) (r c : Int)
    (hrect : Rect board ncols) (hbin : Binary board)
    (hr : 0 ≤ r ∧ r < (board.length : Int)) (hc : 0 ≤ c ∧ c < (ncols : Int)) :
    updateCell r c board = some (lifeNext board r c) ∧
    updateCellOmp r c board = some (lifeNext board r c) := by
  have hrn : r.toNat < board.length := by omega
  have hrow : (board.getD r.toNat []).length = ncols :=
    hrect _ (getD_mem board r.toNat [] hrn)
  have hcn : c.toNat < (board.getD r.toNat []).length := by omega
  have h := updateCell_eq board r c hr.1 hrn hc.1 hcn
  rw [updateCellOmp_eq_updateCell, h, updateCellPure_eq_lifeNext board r c hr.1 hc.1]
  exact ⟨rfl, rfl⟩

theorem C1_witness :
    (Rect wb 3 ∧ Binary wb ∧ ((0 : Int) ≤ 1 ∧ (1 : Int) < (wb.length : Int)) ∧
      ((0 : Int) ≤ 1 ∧ (1 : Int) < (3 : Int))) ∧
    (updateCell 1 1 wb = some (lifeNext wb 1 1) ∧
      updateCellOmp 1 1 wb = some (lifeNext wb 1 1)) :=
  ⟨by decide, C1_updateCell_life_rule wb 3 1 1 (by decide) (by decide) (by decide) (by decide)⟩

/-- Claim C9: for every rectangular board and in-range cell `(r, c)`, every
`vector::at` access performed by `updateCell` is within bounds, so
`updateCell` is total on its stated domain (no out-of-range exception), in
both versions. -/
theorem C9_updateCell_inbounds_total (board : Board) (ncols : Nat) (r c : Int)
    (hrect : Rect board ncols)
    (hr : 0 ≤ r ∧ r < (board.length : Int)) (hc : 0 ≤ c ∧ c < (ncols : Int)) :
    (updateCell r c board).isSome ∧ (updateCellOmp r c board).isSome := by
  have hrn : r.toNat < board.length := by omega
  have hrow : (board.getD r.toNat []).length = ncols :=
    hrect _ (getD_mem board r.toNat [] hrn)
  have hcn : c.toNat < (board.getD r.toNat []).length := by omega
  rw [updateCellOmp_eq_updateCell, updateCell_eq board r c hr.1 hrn hc.1 hcn]
  exact ⟨rfl, rfl⟩

theorem C9_witness :
    (Rect wb 3 ∧ ((0 : Int) ≤ 2 ∧ (2 : Int) < (wb.length : Int)) ∧
      ((0 : Int) ≤ 0 ∧ (0 : Int) < (3 : Int))) ∧
    ((updateCell 2 0 wb).isSome ∧ (updateCellOmp 2 0 wb).isSome) :=
  ⟨by decide, C9_updateCell_inbounds_total wb 3 2 0 (by decide) (by decide) (by decide)⟩

/-- Claim C2: for every rectangular board and worker count `1 ≤ nw ≤ nrows`,
one `updateBoard` step of the threads version equals the sequential
application of `updateCell` to every cell of the prior board; hence the
result is independent of the worker count, and any two worker counts in
`[1, nrows]` give bit-identical boards at every step. -/
theorem C2_threads_step_refines_sequential (board : Board) (ncols nw nw2 : Nat)
    (hrect : Rect board ncols) (h1 : 1 ≤ nw) (h2 : nw ≤ board.length)
    (h1b : 1 ≤ nw2) (h2b : nw2 ≤ board.length) :
    updateBoard board nw = seqUpdate board ∧
    ∀ n, parStepN board nw n = parStepN board nw2 n := by
  constructor
  · rw [updateBoard_eq board nw h1 h2, seqUpdate_eq]
  · intro n
    rw [parStepN_eq board nw h1 h2 n, parStepN_eq board nw2 h1b h2b n]

theorem C2_witness :
    (Rect wb 3 ∧ 1 ≤ 2 ∧ 2 ≤ wb.length ∧ 1 ≤ 3 ∧ 3 ≤ wb.length) ∧
    (updateBoard wb 2 = seqUpdate wb ∧ ∀ n, parStepN wb 2 n = parStepN wb 3 n) :=
  ⟨by decide, C2_threads_step_refines_sequential wb 3 2 3 (by decide) (by decide)
    (by decide) (by decide) (by decide)⟩

/-- Claim C4: for every rectangular board and valid worker count, one step
of the static-partition threads version and one step of the
dynamic-scheduling OpenMP version produce identical boards. -/
theorem C4_threads_omp_equivalence (board : Board) (ncols nw : Nat)
    (hrect : Rect board ncols) (h1 : 1 ≤ nw) (h2 : nw ≤ board.length) :
    updateBoard board nw = updateBoardOmp board := by
  rw [updateBoard_eq board nw h1 h2, updateBoardOmp_eq]

theorem C4_witness :
    (Rect wb 3 ∧ 1 ≤ 2 ∧ 2 ≤ wb.length) ∧ updateBoard wb 2 = updateBoardOmp wb :=
  ⟨by decide, C4_threads_omp_equivalence wb 3 2 (by decide) (by decide) (by decide)⟩

/-- Claim C5: for every rectangular board, after one `updateBoard` call (in
either version) the board has the same number of rows, and every row keeps
its length: the `nrows x ncols` shape is invariant. -/
theorem C5_shape_preservation (board : Board) (ncols nw : Nat)
    (hrect : Rect board ncols) (h1 : 1 ≤ nw) (h2 : nw ≤ board.length) :
    (∃ b1, updateBoard board nw = some b1 ∧ b1.length = board.length ∧
      ∀ r, r < board.length → (b1.getD r []).length = (board.getD r []).length) ∧
    (∃ b2, updateBoardOmp board = some b2 ∧ b2.length = board.length ∧
      ∀ r, r < board.length → (b2.getD r []).length = (board.getD r []).length) := by
  refine ⟨⟨nextBoardPure board, updateBoard_eq board nw h1 h2,
      length_nextBoardPure board, ?_⟩,
    ⟨nextBoardPure board, updateBoardOmp_eq board, length_nextBoardPure board, ?_⟩⟩ <;>
  · intro r hr
    rw [nextBoardPure_getD board r hr, length_nextRowPure]

theorem C5_witness :
    (Rect wb 3 ∧ 1 ≤ 2 ∧ 2 ≤ wb.length) ∧
    ((∃ b1, updateBoard wb 2 = some b1 ∧ b1.length = wb.length ∧
      ∀ r, r < wb.length → (b1.getD r []).length = (wb.getD r []).length) ∧
    (∃ b2, updateBoardOmp wb = some b2 ∧ b2.length = wb.length ∧
      ∀ r, r < wb.length → (b2.getD r []).length = (wb.getD r []).length)) :=
  ⟨by decide, C5_shape_preservation wb 3 2 (by decide) (by decide) (by decide)⟩

/-- Claim C6: a fully dead board stays fully dead after any number of steps
of either version (the all-dead board is absorbing). -/
theorem C6_all_dead_absorbing (board : Board) (nw : Nat)
    (h1 : 1 ≤ nw) (h2 : nw ≤ board.length) (hdead : AllDead board) :
    ∀ n, ∃ b, parStepN board nw n = some b ∧ ompStepN board n = some b ∧ AllDead b := by
  intro n
  exact ⟨nextBoardIter board n, parStepN_eq board nw h1 h2 n, ompStepN_eq board n,
    allDead_nextBoardIter board hdead n⟩

theorem C6_witness :
    (1 ≤ 2 ∧ 2 ≤ wdead.length ∧ AllDead wdead) ∧
    ∀ n, ∃ b, parStepN wdead 2 n = some b ∧ ompStepN wdead n = some b ∧ AllDead b :=
  ⟨by decide, C6_all_dead_absorbing wdead 2 (by decide) (by decide) (by decide)⟩

/-- Claim C10: for every rectangular board with arbitrary integer cells,
after one `updateBoard` call (in either version) every cell of the result
is exactly 0 or 1, since each new cell is the boolean result of
`updateCell`. -/
theorem C10_binary_cells_after_step (board : Board) (ncols nw : Nat)
    (hrect : Rect board ncols) (h1 : 1 ≤ nw) (h2 : nw ≤ board.length) :
    (∃ b1, updateBoard board nw = some b1 ∧ Binary b1) ∧
    (∃ b2, updateBoardOmp board = some b2 ∧ Binary b2) :=
  ⟨⟨nextBoardPure board, updateBoard_eq board nw h1 h2, binary_nextBoardPure board⟩,
   ⟨nextBoardPure board, updateBoardOmp_eq board, binary_nextBoardPure board⟩⟩

theorem C10_witness :
    (Rect wnb 3 ∧ 1 ≤ 2 ∧ 2 ≤ wnb.length) ∧
    ((∃ b1, updateBoard wnb 2 = some b1 ∧ Binary b1) ∧
      (∃ b2, updateBoardOmp wnb = some b2 ∧ Binary b2)) :=
  ⟨by decide, C10_binary_cells_after_step wnb 3 2 (by decide) (by decide) (by decide)⟩

/-- Claim C3: for `1 ≤ nworkers ≤ nrows`, the ranges built by the threads
version's `updateBoard` have exactly `nworkers` entries, start at row 0,
end at row `nrows - 1`, are contiguous, nonempty, sorted and pairwise
disjoint, their union is exactly `[0, nrows)`, and with
`base = nrows / nworkers`, `rem = nrows % nworkers` the first `rem` ranges
hold `base + 1` rows and the remaining ranges hold `base` rows. -/
theorem C3_static_partition_properties (nrows nw : Nat) (h1 : 1 ≤ nw) (h2 : nw ≤ nrows) :
    (mkRanges nrows nw).length = nw ∧
    (rgAt (mkRanges nrows nw) 0).start = 0 ∧
    (rgAt (mkRanges nrows nw) (nw - 1)).stop = (nrows : Int) - 1 ∧
    (∀ k, k + 1 < nw →
      (rgAt (mkRanges nrows nw) (k + 1)).start = (rgAt (mkRanges nrows nw) k).stop + 1) ∧
    (∀ k, k < nw →
      (rgAt (mkRanges nrows nw) k).start ≤ (rgAt (mkRanges nrows nw) k).stop) ∧
    (∀ k l, k < l → l < nw →
      (rgAt (mkRanges nrows nw) k).stop < (rgAt (mkRanges nrows nw) l).start) ∧
    (∀ x : Int, (0 ≤ x ∧ x < (nrows : Int)) ↔
      ∃ k, k < nw ∧ (rgAt (mkRanges nrows nw) k).start ≤ x ∧
        x ≤ (rgAt (mkRanges nrows nw) k).stop) ∧
    (∀ k, k < nw →
      (rgAt (mkRanges nrows nw) k).stop - (rgAt (mkRanges nrows nw) k).start + 1
        = (if k < nrows % nw then ((nrows / nw : Nat) : Int) + 1
          else ((nrows / nw : Nat) : Int))) := by
  have hbase : 1 ≤ nrows / nw := (Nat.one_le_div_iff (by omega)).mpr h2
  have hcl := rgAt_closed nrows nw h1
  refine ⟨?_, ?_, ?_, ?_, ?_, ?_, ?_, ?_⟩
  · rw [mkRanges_closed nrows nw h1]
    simp
  · rw [hcl 0 (by omega)]
    simp [partStart_zero]
  · rw [hcl (nw - 1) (by omega), show nw - 1 + 1 = nw from by omega,
      partStart_top nrows nw h1]
  · intro k hk
    rw [hcl (k + 1) (by omega), hcl k (by omega)]
    dsimp only
    ring
  · intro k hk
    rw [hcl k hk]
    dsimp only
    have := partStart_lt_succ nrows nw k hbase
    omega
  · intro k l hkl hl
    rw [hcl k (by omega), hcl l hl]
    dsimp only
    have hm := partStart_mono nrows nw (show k + 1 ≤ l from hkl)
    have hs := partStart_lt_succ nrows nw k hbase
    omega
  · intro x
    constructor
    · rintro ⟨hx0, hxn⟩
      obtain ⟨k, hk, hk1, hk2⟩ := exists_cover nrows nw nw x.toNat
        (by rw [partStart_top nrows nw h1]; omega)
      refine ⟨k, hk, ?_, ?_⟩ <;> rw [hcl k hk] <;> dsimp only <;> omega
    · rintro ⟨k, hk, ha, hb⟩
      rw [hcl k hk] at ha hb
      dsimp only at ha hb
      have hnn : 0 ≤ (partStart nrows nw k : Int) := by positivity
      have hup : partStart nrows nw (k + 1) ≤ nrows :=
        partStart_le nrows nw (k + 1) h1 (by omega)
      omega
  · intro k hk
    rw [hcl k hk]
    dsimp only
    have hs := partStart_succ nrows nw k
    by_cases hr : k < nrows % nw
    · rw [if_pos hr]
      rw [if_pos hr] at hs
      omega
    · rw [if_neg hr]
      rw [if_neg hr] at hs
      omega

theorem C3_witness :
    (1 ≤ 3 ∧ 3 ≤ 10) ∧
    ((mkRanges 10 3).length = 3 ∧
    (rgAt (mkRanges 10 3) 0).start = 0 ∧
    (rgAt (mkRanges 10 3) (3 - 1)).stop = (10 : Int) - 1 ∧
    (∀ k, k + 1 < 3 →
      (rgAt (mkRanges 10 3) (k + 1)).start = (rgAt (mkRanges 10 3) k).stop + 1) ∧
    (∀ k, k < 3 →
      (rgAt (mkRanges 10 3) k).start ≤ (rgAt (mkRanges 10 3) k).stop) ∧
    (∀ k l, k < l → l < 3 →
      (rgAt (mkRanges 10 3) k).stop < (rgAt (mkRanges 10 3) l).start) ∧
    (∀ x : Int, (0 ≤ x ∧ x < (10 : Int)) ↔
      ∃ k, k < 3 ∧ (rgAt (mkRanges 10 3) k).start ≤ x ∧
        x ≤ (rgAt (mkRanges 10 3) k).stop) ∧
    (∀ k, k < 3 →
      (rgAt (mkRanges 10 3) k).stop - (rgAt (mkRanges 10 3) k).start + 1
        = (if k < 10 % 3 then ((10 / 3 : Nat) : Int) + 1 else ((10 / 3 : Nat) : Int)))) :=
  ⟨by decide, C3_static_partition_properties 10 3 (by decide) (by decide)⟩

/-- Claim C7 is refuted as stated: only gol-par.cpp caps the worker count.
With `nrows = 2` and `nworkers = 5 > 2`, the OpenMP version's main passes
the worker count to the simulation unchanged, not capped at `nrows`. -/
theorem C7_counterexample :
    (5 : Int) > 2 ∧ effectiveWorkersOmp 2 5 ≠ 2 := by
  constructor
  · decide
  · intro h
    exact absurd h (by decide)

/-- Claim C7 (amended): when `nworkers > nrows`, the threads version
(gol-par.cpp) caps the effective worker count at `nrows` before the
simulation, but the OpenMP version (gol-omp.cpp) performs no capping and
uses the requested count unchanged. -/
theorem C7_threads_version_caps (nrows nw : Int) (h : nw > nrows) :
    effectiveWorkersPar nrows nw = nrows ∧ effectiveWorkersOmp nrows nw = nw :=
  ⟨if_pos h, rfl⟩

theorem C7_witness :
    ((5 : Int) > 2) ∧ (effectiveWorkersPar 2 5 = 2 ∧ effectiveWorkersOmp 2 5 = 5) :=
  ⟨by decide, C7_threads_version_caps 2 5 (by decide)⟩

/-- Claim C8: the process exits non-zero after printing the usage message
exactly when `argc ≠ 7`; a well-formed invocation (positive arguments,
`nrows, ncols > 1`) runs the whole simulation, prints the elapsed
milliseconds line and exits 0 — in both versions (I/O and wall-clock time
are modelled as outcome flags). -/
theorem C8_exit_behaviour (nrows ncols iters nw : Nat) (board : Board)
    (hr : 1 < nrows) (hc : 1 < ncols) (hw : 1 ≤ nw)
    (hlen : board.length = nrows) (hrect : Rect board ncols) :
    (∀ argc, argc ≠ 7 →
      mainPar argc nrows iters nw board = some ⟨-1, true, false⟩ ∧
      mainOmp argc iters board = some ⟨-1, true, false⟩) ∧
    mainPar 7 nrows iters nw board = some ⟨0, false, true⟩ ∧
    mainOmp 7 iters board = some ⟨0, false, true⟩ := by
  refine ⟨fun argc ha => ⟨?_, ?_⟩, ?_, ?_⟩
  · rw [mainPar, if_pos ha]
  · rw [mainOmp, if_pos ha]
  · rw [mainPar, if_neg (by omega)]
    have h21 : 1 ≤ (if nw > nrows then nrows else nw) := by
      split <;> omega
    have h22 : (if nw > nrows then nrows else nw) ≤ board.length := by
      split <;> omega
    show (parStepN board (if nw > nrows then nrows else nw) iters).map
      (fun _ => (⟨0, false, true⟩ : MainOutcome)) = some ⟨0, false, true⟩
    rw [parStepN_eq board (if nw > nrows then nrows else nw) h21 h22 iters]
    rfl
  · rw [mainOmp, if_neg (by omega)]
    rw [ompStepN_eq board iters]
    rfl

theorem C8_witness :
    (1 < 3 ∧ 1 < 3 ∧ 1 ≤ 5 ∧ wb.length = 3 ∧ Rect wb 3) ∧
    ((∀ argc, argc ≠ 7 →
      mainPar argc 3 2 5 wb = some ⟨-1, true, false⟩ ∧
      mainOmp argc 2 wb = some ⟨-1, true, false⟩) ∧
    mainPar 7 3 2 5 wb = some ⟨0, false, true⟩ ∧
    mainOmp 7 2 wb = some ⟨0, false, true⟩) :=
  ⟨by decide, C8_exit_behaviour 3 3 2 5 wb (by decide) (by decide) (by decide)
    (by decide) (by decide)⟩

end GoL
